import Mathlib

/- Verification development for the YAML validation and key collection script
   (scripts/validate_yaml_keys.py).

   The script walks a repository, parses every YAML file, extracts a frequency
   map of dot/bracket key paths, serializes it sorted, and, for each open pull
   request, analyzes the changed YAML files and classifies keys as new or
   increased relative to the repository baseline.

   Shallow embedding conventions:
   - Parsed YAML documents are modelled by the inductive type Node
     (mapping / sequence / scalar); a Python dict preserves insertion order and
     has unique keys, so a mapping is a list of (key, value) pairs.
   - Python defaultdict(int) accumulators are modelled by insertion-ordered
     association lists, with bump modelling dict[k] += c.
   - The PyYAML safe_load_all generator is lazy: documents yielded before a
     syntax error stay in the documents list built by the for-loop.  A file's
     parse outcome is therefore given to the model as the list of yielded
     documents (an Option Node per document: None documents are dropped by the
     script) together with an optional terminal error message.
   - Python sorted is a stable sort by a key function; it is modelled by
     List.insertionSort (also stable) over the corresponding order.
   - Strings are compared by code point, as Python does; String.toList with
     Char.toNat gives a kernel-computable embedding of that order.
   - Network and file-system side effects of main are modelled as an explicit
     trace of Effect values. -/

namespace YamlKeys

/-- A parsed YAML document node: mapping, sequence, or scalar.  All scalars
(strings, numbers, booleans, null already filtered) are collapsed into one
constructor because extract_keys never inspects scalar values. -/
inductive Node where
  | scalar : Node
  | map : List (String × Node) → Node
  | seq : List Node → Node

/-- Path for a mapping key under an outer path: the source's
f"{prefix}.{key}" if prefix else key. -/
def joinPath (pre k : String) : String := if pre = "" then k else pre ++ "." ++ k

/-- Path marking a sequence value: the source's f"{prefix}[]" if prefix
else "[]". -/
def listPath (pre : String) : String := if pre = "" then "[]" else pre ++ "[]"

/-- Model of dict[k] += c on an insertion-ordered association list: update the
entry for k in place, or append a fresh entry at the end. -/
def bump : List (String × Nat) → String → Nat → List (String × Nat)
  | [], k, c => [(k, c)]
  | (k', c') :: rest, k, c =>
      if k' = k then (k', c' + c) :: rest else (k', c') :: bump rest k c

/-- Model of the merge loop "for nested_key, count in nested.items():
acc[nested_key] += count". -/
def mergeAdd (acc m : List (String × Nat)) : List (String × Nat) :=
  m.foldl (fun a kv => bump a kv.1 kv.2) acc

/-- Dict lookup with default 0 (value of a missing key in defaultdict(int),
and of dict.get(key, 0)). -/
def countOf : List (String × Nat) → String → Nat
  | [], _ => 0
  | (k', c) :: rest, k => if k' = k then c else countOf rest k

/-- Keys of an association list, in insertion order. -/
def keysOf (m : List (String × Nat)) : List String := m.map Prod.fst

/-- Total count that merging the entries of m adds at key p (helper for
stating accumulator lemmas; sums over every entry whose key is p). -/
def addedCount : List (String × Nat) → String → Nat
  | [], _ => 0
  | (k, c) :: rest, p => (if k = p then c else 0) + addedCount rest p

mutual
/-- Embedding of extract_keys(data, prefix) from the script: walks a parsed
document and returns the insertion-ordered key-count map. -/
def extract_keys : Node → String → List (String × Nat)
  | Node.scalar, _ => []
  | Node.map es, pre => extractEntries es pre []
  | Node.seq its, pre => extractItems its pre (bump [] (listPath pre) 1)
/-- The dict branch of extract_keys: one loop iteration per (key, value) pair,
threading the accumulator exactly as the Python loop does. -/
def extractEntries : List (String × Node) → String → List (String × Nat) → List (String × Nat)
  | [], _, acc => acc
  | (k, v) :: rest, pre, acc =>
      extractEntries rest pre
        (mergeAdd (bump acc (joinPath pre k) 1) (extract_keys v (joinPath pre k)))
/-- The list branch of extract_keys: one loop iteration per element, each
merged with the unchanged parent path. -/
def extractItems : List Node → String → List (String × Nat) → List (String × Nat)
  | [], _, acc => acc
  | it :: rest, pre, acc => extractItems rest pre (mergeAdd acc (extract_keys it pre))
end

/-- Embedding of parse_yaml_file.  The lazy safe_load_all stream is given as
the list of documents it yielded before terminating (None documents included,
the script drops them) plus an optional syntax error that aborted the stream.
The try/except keeps every document appended before the exception and records
exactly one error string. -/
def parse_yaml_file (docs : List (Option Node)) (parseErr : Option String) :
    List Node × List String :=
  (docs.filterMap id, parseErr.elim [] (fun e => ["YAML parse error: " ++ e]))

/-- A candidate file of the repository tree: its path segments and the
outcome of the (lazy) YAML parse of its content. -/
structure FileT where
  parts : List String
  docs : List (Option Node)
  parseErr : Option String

/-- Full path string of a file (segments joined by the path separator). -/
def pathStr (f : FileT) : String := String.intercalate "/" f.parts

/-- The two skip tests of find_yaml_files: '.git' in path.parts, and
'.github' in path.parts and 'workflows' in path.parts.  Python's "in" on the
parts tuple is element equality, i.e. exact segment match. -/
def find_yaml_files_excluded (parts : List String) : Bool :=
  parts.contains ".git" || (parts.contains ".github" && parts.contains "workflows")

/-- Whether byte list sub occurs at the start of l (character-exact). -/
def listStarts : List Char → List Char → Bool
  | _, [] => true
  | [], _ :: _ => false
  | a :: as, b :: bs => a = b && listStarts as bs

/-- Whether sub occurs contiguously anywhere in l. -/
def hasSub : List Char → List Char → Bool
  | [], sub => sub.isEmpty
  | a :: as, sub => listStarts (a :: as) sub || hasSub as sub

/-- Python's substring test: sub in s. -/
def strContainsSub (s sub : String) : Bool := hasSub s.toList sub.toList

/-- Python's s.endswith(suffix). -/
def strEndsWith (s suff : String) : Bool := listStarts s.toList.reverse suff.toList.reverse

/-- The glob patterns **/*.yml and **/*.yaml match files whose final path
segment ends with the extension. -/
def isYamlName (parts : List String) : Bool :=
  strEndsWith (parts.getLastD "") ".yml" || strEndsWith (parts.getLastD "") ".yaml"

/-- Code-point comparison of character lists, the order Python uses on
strings (lexicographic, ties broken by the next character). -/
def strLeL : List Char → List Char → Bool
  | [], _ => true
  | _ :: _, [] => false
  | a :: as, b :: bs => if a = b then strLeL as bs else decide (a.toNat < b.toNat)

/-- Python's s <= t on strings. -/
def strLe (s t : String) : Bool := strLeL s.toList t.toList

/-- Ascending string order as a proposition (used as the sort relation). -/
def strRel (s t : String) : Prop := strLe s t = true

instance : DecidableRel strRel := fun s t => by unfold strRel; exact inferInstance

/-- Order on candidate files used by sorted(yaml_files): PurePath comparison
is by the path string. -/
def pathRel (f g : FileT) : Prop := strLe (pathStr f) (pathStr g) = true

instance : DecidableRel pathRel := fun f g => by unfold pathRel; exact inferInstance

/-- Embedding of find_yaml_files: filter the glob candidates by extension,
skip the excluded paths, and return the list sorted by path. -/
def find_yaml_files (cands : List FileT) : List FileT :=
  List.insertionSort pathRel
    (cands.filter (fun f => isYamlName f.parts && !find_yaml_files_excluded f.parts))

/-- Per-file step of the scan_repository loop: record the file's errors (when
any) and merge the extraction of every returned document into the running
aggregate.  Note the extraction loop runs whether or not errors were
recorded, exactly as in the source. -/
def scanStep (st : List (String × Nat) × List (String × List String)) (f : FileT) :
    List (String × Nat) × List (String × List String) :=
  let pr := parse_yaml_file f.docs f.parseErr
  let errs := if pr.2 = [] then st.2 else st.2 ++ [(pathStr f, pr.2)]
  (pr.1.foldl (fun m d => mergeAdd m (extract_keys d "")) st.1, errs)

/-- Embedding of the aggregation loop of scan_repository over an already
enumerated file list: returns (all_key_counts, file_errors). -/
def scan_repository (files : List FileT) :
    List (String × Nat) × List (String × List String) :=
  files.foldl scanStep ([], [])

/-- Sort order of write_key_counts: key=lambda x: (-x[1], x[0]), i.e. count
descending, then key ascending. -/
def keyOrderRel (a b : String × Nat) : Prop :=
  b.2 < a.2 ∨ (a.2 = b.2 ∧ strLe a.1 b.1 = true)

instance : DecidableRel keyOrderRel := fun a b => by unfold keyOrderRel; exact inferInstance

/-- One output line of write_key_counts: f"{count}\t{key}". -/
def keyLine (kv : String × Nat) : String := toString kv.2 ++ "\x09" ++ kv.1

/-- Embedding of write_key_counts: the lines written to the output file, in
order. -/
def write_key_counts (kc : List (String × Nat)) : List String :=
  (List.insertionSort keyOrderRel kc).map keyLine

/-- The whole repository-scan-to-output pipeline: enumerate, scan, serialize.
The written file is exactly these lines. -/
def repo_scan_output (cands : List FileT) : List String :=
  write_key_counts (scan_repository (find_yaml_files cands)).1

/-- A file changed by a pull request, as analyze_pr_yaml_files sees it:
filename, change status, raw-content URL, the fetch outcome (none when the
request raised), and the parse outcome of the fetched content. -/
structure PRFile where
  filename : String
  status : String
  raw_url : String
  fetchResult : Option String
  docs : List (Option Node)
  parseErr : Option String

/-- Embedding of fetch_file_content: returns the response text, or the empty
string when the request raised. -/
def fetch_file_content (fetchResult : Option String) : String := fetchResult.getD ""

/-- The CI-workflow skip test of analyze_pr_yaml_files: the Python expression
'.github/workflows' in filename, a substring test on the joined path. -/
def pr_workflow_excluded (filename : String) : Bool :=
  strContainsSub filename ".github/workflows"

/-- Extension test of analyze_pr_yaml_files: filename.endswith('.yml') or
filename.endswith('.yaml'). -/
def pr_is_yaml (filename : String) : Bool :=
  strEndsWith filename ".yml" || strEndsWith filename ".yaml"

/-- Per-file step of the analyze_pr_yaml_files loop. -/
def prStep (st : List (String × Nat) × List (String × List String)) (f : PRFile) :
    List (String × Nat) × List (String × List String) :=
  if !pr_is_yaml f.filename then st
  else if pr_workflow_excluded f.filename then st
  else if f.status = "removed" then st
  else if f.raw_url = "" then st
  else if fetch_file_content f.fetchResult = "" then
    (st.1, st.2 ++ [(f.filename, ["Could not fetch file content"])])
  else
    let pr := parse_yaml_file f.docs f.parseErr
    let errs := if pr.2 = [] then st.2 else st.2 ++ [(f.filename, pr.2)]
    (pr.1.foldl (fun m d => mergeAdd m (extract_keys d "")) st.1, errs)

/-- Embedding of analyze_pr_yaml_files over the changed-file list of one pull
request: returns (pr_key_counts, pr_file_errors). -/
def analyze_pr_yaml_files (files : List PRFile) :
    List (String × Nat) × List (String × List String) :=
  files.foldl prStep ([], [])

/-- Classification loop of build_pr_comment: keys with zero repository count
are new, keys with positive repository and positive PR count are increased
with (key, repo_count, pr_count, repo_count + pr_count). -/
def classifyStep (repoCounts : List (String × Nat))
    (st : List String × List (String × Nat × Nat × Nat)) (kv : String × Nat) :
    List String × List (String × Nat × Nat × Nat) :=
  let rc := countOf repoCounts kv.1
  if rc = 0 then (st.1 ++ [kv.1], st.2)
  else if 0 < kv.2 then (st.1, st.2 ++ [(kv.1, rc, kv.2, rc + kv.2)])
  else st

/-- Order used by sorted(increased_keys, key=lambda x: -x[2]): PR count
(delta) descending. -/
def deltaRel (a b : String × Nat × Nat × Nat) : Prop := b.2.2.1 ≤ a.2.2.1

instance : DecidableRel deltaRel := fun a b => by unfold deltaRel; exact inferInstance

/-- Classification of build_pr_comment: the new-keys list sorted ascending by
key, and the increased-keys table sorted by delta descending. -/
def classify_pr_keys (prCounts repoCounts : List (String × Nat)) :
    List String × List (String × Nat × Nat × Nat) :=
  let raw := prCounts.foldl (classifyStep repoCounts) ([], [])
  (List.insertionSort strRel raw.1, List.insertionSort deltaRel raw.2)

/-- One externally visible action of a run, in order of occurrence. -/
inductive Effect where
  | scanRepo : Effect
  | writeOutput : List String → Effect
  | httpGet : String → Effect
  | httpPost : String → Effect
deriving DecidableEq

/-- An open pull request together with its changed files, as the hosting API
would report them. -/
structure PRData where
  number : Nat
  files : List PRFile

/-- Network effects of the analyze_pr_yaml_files loop: one GET per retained
changed file (the fetch of its raw content). -/
def pr_fetch_effects (files : List PRFile) : List Effect :=
  files.foldl (fun acc f =>
    if !pr_is_yaml f.filename then acc
    else if pr_workflow_excluded f.filename then acc
    else if f.status = "removed" then acc
    else if f.raw_url = "" then acc
    else acc ++ [Effect.httpGet f.raw_url]) []

/-- Effects of process_pull_requests: nothing at all without a token or a
repository name, otherwise one GET for the PR list and, per PR, one GET for
its file list, the content fetches, and one POST for the comment. -/
def process_pull_requests (token repo : String) (prs : List PRData) : List Effect :=
  if token = "" then []
  else if repo = "" then []
  else
    Effect.httpGet ("https://api.github.com/repos/" ++ repo ++ "/pulls") ::
      prs.foldl (fun acc p =>
        acc ++
          Effect.httpGet ("https://api.github.com/repos/" ++ repo ++ "/pulls/" ++
              toString p.number ++ "/files") ::
            (pr_fetch_effects p.files ++
              [Effect.httpPost ("https://api.github.com/repos/" ++ repo ++ "/issues/" ++
                toString p.number ++ "/comments")])) []

/-- Embedding of main: the ordered effect trace (scan, output write, then the
PR processing) and the process exit status, which is always 0 via
sys.exit(0). -/
def main_run (token repo : String) (cands : List FileT) (prs : List PRData) :
    List Effect × Nat :=
  (Effect.scanRepo :: Effect.writeOutput (repo_scan_output cands) ::
    process_pull_requests token repo prs, 0)

/-- Whether an effect is a network request (a GET or a POST). -/
def isNetworkEffect : Effect → Bool
  | Effect.httpGet _ => true
  | Effect.httpPost _ => true
  | Effect.scanRepo => false
  | Effect.writeOutput _ => false

theorem countOf_bump (m : List (String × Nat)) (k : String) (c : Nat) (p : String) :
    countOf (bump m k c) p = countOf m p + (if k = p then c else 0) := by
  induction m with
  | nil =>
    simp only [bump, countOf]
    split <;> simp
  | cons kv rest ih =>
    obtain ⟨k', c'⟩ := kv
    by_cases hk : k' = k
    · subst hk
      by_cases hp : k' = p
      · subst hp
        simp [bump, countOf]
      · simp [bump, countOf, hp]
    · by_cases hp : k' = p
      · subst hp
        have hkp : ¬ k = k' := fun h => hk h.symm
        simp [bump, countOf, hk, hkp]
      · simp [bump, countOf, hk, hp, ih]

theorem countOf_mergeAdd (m : List (String × Nat)) :
    ∀ (acc : List (String × Nat)) (p : String),
      countOf (mergeAdd acc m) p = countOf acc p + addedCount m p := by
  induction m with
  | nil =>
    intro acc p
    simp [mergeAdd, addedCount]
  | cons kv rest ih =>
    intro acc p
    obtain ⟨k, c⟩ := kv
    have h1 : mergeAdd acc ((k, c) :: rest) = mergeAdd (bump acc k c) rest := rfl
    rw [h1, ih, countOf_bump, addedCount]
    omega

theorem keysOf_cons (k : String) (c : Nat) (rest : List (String × Nat)) :
    keysOf ((k, c) :: rest) = k :: keysOf rest := rfl

theorem keysOf_bump_mem {m : List (String × Nat)} {k : String} (c : Nat)
    (h : k ∈ keysOf m) : keysOf (bump m k c) = keysOf m := by
  induction m with
  | nil => simp [keysOf] at h
  | cons kv rest ih =>
    obtain ⟨k', c'⟩ := kv
    by_cases hk : k' = k
    · subst hk
      simp [bump, keysOf]
    · have hmem : k ∈ keysOf rest := by
        rw [keysOf_cons] at h
        rcases List.mem_cons.mp h with h | h
        · exact absurd h.symm hk
        · exact h
      rw [keysOf_cons] at *
      simp only [bump, hk, if_false]
      rw [keysOf_cons, ih hmem]

theorem keysOf_bump_not_mem {m : List (String × Nat)} {k : String} (c : Nat)
    (h : k ∉ keysOf m) : keysOf (bump m k c) = keysOf m ++ [k] := by
  induction m with
  | nil => simp [bump, keysOf]
  | cons kv rest ih =>
    obtain ⟨k', c'⟩ := kv
    rw [keysOf_cons] at h
    have hk : k' ≠ k := fun hkk => h (hkk ▸ List.mem_cons_self k' _)
    have hmem : k ∉ keysOf rest := fun hm => h (List.mem_cons_of_mem _ hm)
    simp only [bump, hk, if_false]
    rw [keysOf_cons, keysOf_cons, ih hmem]
    rfl

theorem nodup_keys_bump {m : List (String × Nat)} {k : String} (c : Nat)
    (h : (keysOf m).Nodup) : (keysOf (bump m k c)).Nodup := by
  by_cases hm : k ∈ keysOf m
  · rwa [keysOf_bump_mem c hm]
  · rw [keysOf_bump_not_mem c hm]
    simp only [List.nodup_append, List.nodup_cons, List.not_mem_nil, not_false_iff,
      List.nodup_nil, and_true, List.disjoint_singleton]
    exact ⟨h, by simpa using hm⟩

theorem nodup_keys_mergeAdd (m : List (String × Nat)) :
    ∀ {acc : List (String × Nat)}, (keysOf acc).Nodup → (keysOf (mergeAdd acc m)).Nodup := by
  induction m with
  | nil =>
    intro acc h
    simpa [mergeAdd] using h
  | cons kv rest ih =>
    intro acc h
    have h1 : mergeAdd acc (kv :: rest) = mergeAdd (bump acc kv.1 kv.2) rest := rfl
    rw [h1]
    exact ih (nodup_keys_bump kv.2 h)

theorem nodup_keys_extractEntries (es : List (String × Node)) (pre : String) :
    ∀ {acc : List (String × Nat)}, (keysOf acc).Nodup →
      (keysOf (extractEntries es pre acc)).Nodup := by
  induction es with
  | nil =>
    intro acc h
    simpa [extractEntries] using h
  | cons kv rest ih =>
    intro acc h
    obtain ⟨k, v⟩ := kv
    have h1 : extractEntries ((k, v) :: rest) pre acc =
        extractEntries rest pre
          (mergeAdd (bump acc (joinPath pre k) 1) (extract_keys v (joinPath pre k))) := rfl
    rw [h1]
    exact ih (nodup_keys_mergeAdd _ (nodup_keys_bump 1 h))

theorem nodup_keys_extractItems (its : List Node) (pre : String) :
    ∀ {acc : List (String × Nat)}, (keysOf acc).Nodup →
      (keysOf (extractItems its pre acc)).Nodup := by
  induction its with
  | nil =>
    intro acc h
    simpa [extractItems] using h
  | cons it rest ih =>
    intro acc h
    have h1 : extractItems (it :: rest) pre acc =
        extractItems rest pre (mergeAdd acc (extract_keys it pre)) := rfl
    rw [h1]
    exact ih (nodup_keys_mergeAdd _ h)

theorem nodup_keys_extract (n : Node) (pre : String) :
    (keysOf (extract_keys n pre)).Nodup := by
  cases n with
  | scalar => simp [extract_keys, keysOf]
  | map es => exact nodup_keys_extractEntries es pre (by simp [keysOf])
  | seq its => exact nodup_keys_extractItems its pre (by simp [keysOf, bump])

theorem countOf_of_not_mem : ∀ {m : List (String × Nat)} {p : String},
    p ∉ keysOf m → countOf m p = 0 := by
  intro m
  induction m with
  | nil => intro p _; rfl
  | cons kv rest ih =>
    intro p h
    obtain ⟨k, c⟩ := kv
    rw [keysOf_cons] at h
    have hk : k ≠ p := fun hkk => h (hkk ▸ List.mem_cons_self k _)
    have hmem : p ∉ keysOf rest := fun hm => h (List.mem_cons_of_mem _ hm)
    simp [countOf, hk, ih hmem]

theorem addedCount_of_not_mem : ∀ {m : List (String × Nat)} {p : String},
    p ∉ keysOf m → addedCount m p = 0 := by
  intro m
  induction m with
  | nil => intro p _; rfl
  | cons kv rest ih =>
    intro p h
    obtain ⟨k, c⟩ := kv
    rw [keysOf_cons] at h
    have hk : k ≠ p := fun hkk => h (hkk ▸ List.mem_cons_self k _)
    have hmem : p ∉ keysOf rest := fun hm => h (List.mem_cons_of_mem _ hm)
    simp [addedCount, hk, ih hmem]

theorem addedCount_eq_countOf : ∀ {m : List (String × Nat)},
    (keysOf m).Nodup → ∀ (p : String), addedCount m p = countOf m p := by
  intro m
  induction m with
  | nil => intro _ p; rfl
  | cons kv rest ih =>
    intro h p
    obtain ⟨k, c⟩ := kv
    rw [keysOf_cons] at h
    have hnotin : k ∉ keysOf rest := (List.nodup_cons.mp h).1
    have hrest : (keysOf rest).Nodup := (List.nodup_cons.mp h).2
    by_cases hk : k = p
    · subst hk
      simp [addedCount, countOf, addedCount_of_not_mem hnotin]
    · simp [addedCount, countOf, hk, ih hrest]

theorem countOf_extractEntries (es : List (String × Node)) (pre : String) :
    ∀ (acc : List (String × Nat)) (p : String),
      countOf (extractEntries es pre acc) p
        = countOf acc p + countOf (extractEntries es pre []) p := by
  induction es with
  | nil =>
    intro acc p
    simp [extractEntries, countOf]
  | cons kv rest ih =>
    intro acc p
    obtain ⟨k, v⟩ := kv
    have step : ∀ a : List (String × Nat), extractEntries ((k, v) :: rest) pre a =
        extractEntries rest pre
          (mergeAdd (bump a (joinPath pre k) 1) (extract_keys v (joinPath pre k))) :=
      fun a => rfl
    rw [step acc, step [],
      ih (mergeAdd (bump acc (joinPath pre k) 1) (extract_keys v (joinPath pre k))) p,
      ih (mergeAdd (bump [] (joinPath pre k) 1) (extract_keys v (joinPath pre k))) p,
      countOf_mergeAdd, countOf_mergeAdd, countOf_bump, countOf_bump]
    simp only [countOf]
    omega

theorem countOf_extractItems (its : List Node) (pre : String) :
    ∀ (acc : List (String × Nat)) (p : String),
      countOf (extractItems its pre acc) p
        = countOf acc p + (its.map (fun it => countOf (extract_keys it pre) p)).sum := by
  induction its with
  | nil =>
    intro acc p
    simp [extractItems]
  | cons it rest ih =>
    intro acc p
    have step : extractItems (it :: rest) pre acc =
        extractItems rest pre (mergeAdd acc (extract_keys it pre)) := rfl
    rw [step, ih, countOf_mergeAdd, addedCount_eq_countOf (nodup_keys_extract it pre)]
    simp only [List.map_cons, List.sum_cons]
    omega

theorem char_toNat_inj {a b : Char} (h : a.toNat = b.toNat) : a = b :=
  Char.ext (UInt32.ext h)

theorem strLeL_refl : ∀ (l : List Char), strLeL l l = true := by
  intro l
  induction l with
  | nil => rfl
  | cons a as ih => simp [strLeL, ih]

theorem strLeL_total : ∀ (l m : List Char), strLeL l m = true ∨ strLeL m l = true := by
  intro l
  induction l with
  | nil => intro m; left; rfl
  | cons a as ih =>
    intro m
    cases m with
    | nil => right; rfl
    | cons b bs =>
      by_cases hab : a = b
      · subst hab
        rcases ih bs with h | h
        · left; simpa [strLeL] using h
        · right; simpa [strLeL] using h
      · have hba : ¬ b = a := fun h => hab h.symm
        have hne : a.toNat ≠ b.toNat := fun h => hab (char_toNat_inj h)
        rcases Nat.lt_or_ge a.toNat b.toNat with h | h
        · left; simp [strLeL, hab, h]
        · right
          have : b.toNat < a.toNat := lt_of_le_of_ne h (fun he => hne he.symm)
          simp [strLeL, hba, this]

theorem strLeL_trans : ∀ (l m n : List Char),
    strLeL l m = true → strLeL m n = true → strLeL l n = true := by
  intro l
  induction l with
  | nil => intro m n _ _; rfl
  | cons a as ih =>
    intro m n h1 h2
    cases m with
    | nil => simp [strLeL] at h1
    | cons b bs =>
      cases n with
      | nil => simp [strLeL] at h2
      | cons c cs =>
        by_cases hab : a = b
        · subst hab
          by_cases hac : a = c
          · subst hac
            simp only [strLeL, if_pos rfl] at h1 h2 ⊢
            exact ih bs cs h1 h2
          · simp only [strLeL, if_pos rfl] at h1
            simpa [strLeL, hac] using h2
        · by_cases hbc : b = c
          · subst hbc
            simp only [strLeL, hab, if_false] at h1
            simpa [strLeL, hab] using h1
          · simp only [strLeL, hab, hbc, if_false, decide_eq_true_eq] at h1 h2
            have hlt : a.toNat < c.toNat := Nat.lt_trans h1 h2
            have hac : a ≠ c := fun he => by
              rw [he] at h1
              omega
            simp [strLeL, hac, hlt]

theorem strLeL_antisymm : ∀ (l m : List Char),
    strLeL l m = true → strLeL m l = true → l = m := by
  intro l
  induction l with
  | nil =>
    intro m _ h2
    cases m with
    | nil => rfl
    | cons b bs => simp [strLeL] at h2
  | cons a as ih =>
    intro m h1 h2
    cases m with
    | nil => simp [strLeL] at h1
    | cons b bs =>
      by_cases hab : a = b
      · subst hab
        simp only [strLeL, if_pos rfl] at h1 h2
        rw [ih bs h1 h2]
      · have hba : ¬ b = a := fun h => hab h.symm
        simp only [strLeL, hab, hba, if_false, decide_eq_true_eq] at h1 h2
        omega

theorem string_toList_inj {s t : String} (h : s.toList = t.toList) : s = t := by
  cases s
  cases t
  exact congrArg String.mk (by simpa [String.toList] using h)

theorem strLe_refl (s : String) : strLe s s = true := strLeL_refl _

theorem strLe_total (s t : String) : strLe s t = true ∨ strLe t s = true :=
  strLeL_total _ _

theorem strLe_trans {s t u : String} (h1 : strLe s t = true) (h2 : strLe t u = true) :
    strLe s u = true := strLeL_trans _ _ _ h1 h2

theorem strLe_antisymm {s t : String} (h1 : strLe s t = true) (h2 : strLe t s = true) :
    s = t := string_toList_inj (strLeL_antisymm _ _ h1 h2)

instance : IsTotal String strRel := ⟨fun s t => strLe_total s t⟩

instance : IsTrans String strRel := ⟨fun _ _ _ h1 h2 => strLe_trans h1 h2⟩

instance : IsTotal FileT pathRel := ⟨fun f g => strLe_total (pathStr f) (pathStr g)⟩

instance : IsTrans FileT pathRel := ⟨fun _ _ _ h1 h2 => strLe_trans h1 h2⟩

instance : IsTotal (String × Nat) keyOrderRel := by
  constructor
  intro a b
  unfold keyOrderRel
  rcases Nat.lt_trichotomy a.2 b.2 with h | h | h
  · right; left; exact h
  · rcases strLe_total a.1 b.1 with hs | hs
    · left; right; exact ⟨h, hs⟩
    · right; right; exact ⟨h.symm, hs⟩
  · left; left; exact h

instance : IsTrans (String × Nat) keyOrderRel := by
  constructor
  intro a b c h1 h2
  unfold keyOrderRel at *
  rcases h1 with h1 | ⟨he1, hs1⟩
  · rcases h2 with h2 | ⟨he2, hs2⟩
    · left; omega
    · left; omega
  · rcases h2 with h2 | ⟨he2, hs2⟩
    · left; omega
    · right; exact ⟨he1.trans he2, strLe_trans hs1 hs2⟩

instance : IsTotal (String × Nat × Nat × Nat) deltaRel :=
  ⟨fun a b => by unfold deltaRel; omega⟩

instance : IsTrans (String × Nat × Nat × Nat) deltaRel :=
  ⟨fun a b c h1 h2 => by unfold deltaRel at *; omega⟩

theorem sorted_perm_unique {α : Type} {le : α → α → Prop} :
    ∀ {l1 l2 : List α}, l1.Perm l2 → List.Sorted le l1 → List.Sorted le l2 →
      (∀ a ∈ l1, ∀ b ∈ l1, le a b → le b a → a = b) → l1 = l2 := by
  intro l1
  induction l1 with
  | nil =>
    intro l2 hp _ _ _
    exact (hp.nil_eq).symm ▸ rfl
  | cons a as ih =>
    intro l2 hp hs1 hs2 hanti
    cases l2 with
    | nil => exact absurd hp.symm.nil_eq (by simp)
    | cons b bs =>
      have hab : a = b := by
        have hain : a ∈ b :: bs := hp.subset (List.mem_cons_self a as)
        have hbin : b ∈ a :: as := hp.symm.subset (List.mem_cons_self b bs)
        rcases List.mem_cons.mp hain with h | h
        · exact h
        · rcases List.mem_cons.mp hbin with h2 | h2
          · exact h2.symm
          · have hle1 : le a b := List.rel_of_sorted_cons hs1 b h2
            have hle2 : le b a := List.rel_of_sorted_cons hs2 a h
            exact hanti a (List.mem_cons_self a as) b (List.mem_cons_of_mem a h2) hle1 hle2
      subst hab
      have hptail : as.Perm bs := hp.cons_inv
      have htail : as = bs :=
        ih hptail hs1.of_cons hs2.of_cons
          (fun x hx y hy => hanti x (List.mem_cons_of_mem a hx) y (List.mem_cons_of_mem a hy))
      rw [htail]

theorem countOf_docsFold (docs : List Node) :
    ∀ (m0 : List (String × Nat)) (p : String),
      countOf (docs.foldl (fun m d => mergeAdd m (extract_keys d "")) m0) p
        = countOf m0 p + (docs.map (fun d => countOf (extract_keys d "") p)).sum := by
  induction docs with
  | nil =>
    intro m0 p
    simp
  | cons d rest ih =>
    intro m0 p
    simp only [List.foldl_cons, List.map_cons, List.sum_cons]
    rw [ih, countOf_mergeAdd, addedCount_eq_countOf (nodup_keys_extract d "")]
    omega

theorem countOf_scan_foldl (files : List FileT) :
    ∀ (st : List (String × Nat) × List (String × List String)) (p : String),
      countOf ((files.foldl scanStep st).1) p
        = countOf st.1 p +
          (files.map (fun f =>
            ((parse_yaml_file f.docs f.parseErr).1.map
              (fun d => countOf (extract_keys d "") p)).sum)).sum := by
  induction files with
  | nil =>
    intro st p
    simp
  | cons f rest ih =>
    intro st p
    simp only [List.foldl_cons, List.map_cons, List.sum_cons]
    rw [ih]
    have hstep : (scanStep st f).1 = (parse_yaml_file f.docs f.parseErr).1.foldl
        (fun m d => mergeAdd m (extract_keys d "")) st.1 := rfl
    rw [hstep, countOf_docsFold]
    omega

/-- C1: for every mapping node and every prefix, extract_keys counts the path
joining prefix and key (with "." unless the prefix is empty) exactly once per
key, recurses into the value with that joined path as the new prefix, and sums
the recursive result into the accumulator; in particular
extract({"a": {"b": 1}}, "") = {"a": 1, "a.b": 1}. -/
theorem c1_extract_mapping :
    (∀ (k : String) (v : Node) (rest : List (String × Node)) (pre p : String),
      countOf (extract_keys (Node.map ((k, v) :: rest)) pre) p
        = (if joinPath pre k = p then 1 else 0)
          + countOf (extract_keys v (joinPath pre k)) p
          + countOf (extract_keys (Node.map rest) pre) p)
    ∧ extract_keys (Node.map []) "" = []
    ∧ extract_keys (Node.map [("a", Node.map [("b", Node.scalar)])]) ""
        = [("a", 1), ("a.b", 1)] := by
  refine ⟨?_, rfl, by decide⟩
  intro k v rest pre p
  have h1 : extract_keys (Node.map ((k, v) :: rest)) pre =
      extractEntries rest pre
        (mergeAdd (bump [] (joinPath pre k) 1) (extract_keys v (joinPath pre k))) := rfl
  have h2 : extract_keys (Node.map rest) pre = extractEntries rest pre [] := rfl
  rw [h1, h2, countOf_extractEntries, countOf_mergeAdd, countOf_bump,
    addedCount_eq_countOf (nodup_keys_extract v (joinPath pre k))]
  simp only [countOf]
  omega

/-- C2: for every sequence node and every prefix, extract_keys counts the
bracketed path prefix[] exactly once regardless of element count, including
for an empty sequence, and recurses into each element with the unchanged
parent prefix, summing the per-element results; in particular
extract({"a": [1,2,3]}, "") = {"a": 1, "a[]": 1}, and
extract({"a": [{"b":1},{"c":1}]}, "") counts a, a[], a.b, a.c once each. -/
theorem c2_extract_sequence :
    (∀ (its : List Node) (pre p : String),
      countOf (extract_keys (Node.seq its) pre) p
        = (if listPath pre = p then 1 else 0)
          + (its.map (fun it => countOf (extract_keys it pre) p)).sum)
    ∧ extract_keys (Node.seq []) "" = [("[]", 1)]
    ∧ extract_keys (Node.map [("a", Node.seq [Node.scalar, Node.scalar, Node.scalar])]) ""
        = [("a", 1), ("a[]", 1)]
    ∧ extract_keys
        (Node.map [("a", Node.seq [Node.map [("b", Node.scalar)],
          Node.map [("c", Node.scalar)]])]) ""
        = [("a", 1), ("a[]", 1), ("a.b", 1), ("a.c", 1)] := by
  refine ⟨?_, by decide, by decide, by decide⟩
  intro its pre p
  have h1 : extract_keys (Node.seq its) pre =
      extractItems its pre (bump [] (listPath pre) 1) := rfl
  rw [h1, countOf_extractItems, countOf_bump]
  simp only [countOf]
  omega

/-- C8: the aggregate key-count map of scan_repository is the pointwise sum of
the per-document extraction results over all parsed documents, and hence the
aggregate count of any path is at least the count contributed by any single
document of any scanned file. -/
theorem c8_scan_additivity :
    (∀ (files : List FileT) (p : String),
      countOf ((scan_repository files).1) p
        = (files.map (fun f =>
            ((parse_yaml_file f.docs f.parseErr).1.map
              (fun d => countOf (extract_keys d "") p)).sum)).sum)
    ∧ (∀ (files : List FileT) (p : String) (f : FileT) (d : Node),
        f ∈ files → d ∈ (parse_yaml_file f.docs f.parseErr).1 →
        countOf (extract_keys d "") p ≤ countOf ((scan_repository files).1) p) := by
  have hsum : ∀ (files : List FileT) (p : String),
      countOf ((scan_repository files).1) p
        = (files.map (fun f =>
            ((parse_yaml_file f.docs f.parseErr).1.map
              (fun d => countOf (extract_keys d "") p)).sum)).sum := by
    intro files p
    have h := countOf_scan_foldl files ([], []) p
    simpa [scan_repository, countOf] using h
  refine ⟨hsum, ?_⟩
  intro files p f d hf hd
  rw [hsum files p]
  have hin : countOf (extract_keys d "") p ∈
      (parse_yaml_file f.docs f.parseErr).1.map (fun d => countOf (extract_keys d "") p) :=
    List.mem_map_of_mem _ hd
  have h1 : countOf (extract_keys d "") p ≤
      ((parse_yaml_file f.docs f.parseErr).1.map
        (fun d => countOf (extract_keys d "") p)).sum :=
    List.single_le_sum (fun x _ => Nat.zero_le x) _ hin
  have hin2 : ((parse_yaml_file f.docs f.parseErr).1.map
      (fun d => countOf (extract_keys d "") p)).sum ∈
      files.map (fun f =>
        ((parse_yaml_file f.docs f.parseErr).1.map
          (fun d => countOf (extract_keys d "") p)).sum) :=
    List.mem_map_of_mem _ hf
  have h2 := List.single_le_sum (fun x _ => Nat.zero_le x) _ hin2
  omega

/-- Witness for C8: in a one-file repository holding the single document
{"a": 1}, the document's own count of path "a" is bounded by the aggregate. -/
theorem c8_scan_additivity_witness :
    countOf (extract_keys (Node.map [("a", Node.scalar)]) "") "a"
      ≤ countOf ((scan_repository
          [FileT.mk ["f.yml"] [some (Node.map [("a", Node.scalar)])] none]).1) "a" :=
  c8_scan_additivity.2
    [FileT.mk ["f.yml"] [some (Node.map [("a", Node.scalar)])] none] "a"
    (FileT.mk ["f.yml"] [some (Node.map [("a", Node.scalar)])] none)
    (Node.map [("a", Node.scalar)])
    (List.mem_cons_self _ _)
    (List.mem_cons_self _ _)

/-- Counterexample to C3: a file whose stream yields the document {"a": 1}
and then hits a syntax error keeps that document — parse_yaml_file returns it
alongside the single recorded error, and scan_repository adds its key counts
to the aggregate — contradicting the claim that such a file contributes zero
documents and zero key counts. -/
theorem c3_counterexample :
    (parse_yaml_file [some (Node.map [("a", Node.scalar)])]
        (some "while parsing a block mapping")).1
      = [Node.map [("a", Node.scalar)]]
    ∧ (parse_yaml_file [some (Node.map [("a", Node.scalar)])]
        (some "while parsing a block mapping")).2.length = 1
    ∧ (scan_repository [FileT.mk ["bad.yml"]
          [some (Node.map [("a", Node.scalar)])]
          (some "while parsing a block mapping")]).2
        = [("bad.yml", ["YAML parse error: while parsing a block mapping"])]
    ∧ countOf ((scan_repository [FileT.mk ["bad.yml"]
          [some (Node.map [("a", Node.scalar)])]
          (some "while parsing a block mapping")]).1) "a" = 1 :=
  ⟨rfl, rfl, rfl, rfl⟩

/-- C3 (amended): for every file whose stream ends in a YAML syntax error,
parsing records exactly one error string, but the documents yielded before the
error are retained — the file contributes them to the scan, whose error map
gets one entry for the file and whose aggregate gains exactly the retained
documents' key counts. -/
theorem c3_amended (f : FileT) (e : String) (he : f.parseErr = some e) :
    (parse_yaml_file f.docs f.parseErr).2 = ["YAML parse error: " ++ e]
    ∧ (parse_yaml_file f.docs f.parseErr).1 = f.docs.filterMap id
    ∧ (scan_repository [f]).2 = [(pathStr f, ["YAML parse error: " ++ e])]
    ∧ ∀ (p : String), countOf ((scan_repository [f]).1) p
        = ((f.docs.filterMap id).map (fun d => countOf (extract_keys d "") p)).sum := by
  refine ⟨by simp [parse_yaml_file, he], rfl, ?_, ?_⟩
  · simp [scan_repository, scanStep, parse_yaml_file, he]
  · intro p
    have h := countOf_scan_foldl [f] ([], []) p
    simpa [scan_repository, countOf, parse_yaml_file] using h

/-- Witness for C3 (amended), at a file yielding {"a": 1} and a null document
before failing with message "boom". -/
theorem c3_amended_witness :
    (parse_yaml_file [some (Node.map [("a", Node.scalar)]), none] (some "boom")).2
        = ["YAML parse error: boom"]
    ∧ countOf ((scan_repository [FileT.mk ["bad.yml"]
          [some (Node.map [("a", Node.scalar)]), none] (some "boom")]).1) "a"
        = (((([some (Node.map [("a", Node.scalar)]), none] :
            List (Option Node)).filterMap id)).map
              (fun d => countOf (extract_keys d "") "a")).sum :=
  ⟨(c3_amended (FileT.mk ["bad.yml"] [some (Node.map [("a", Node.scalar)]), none]
      (some "boom")) "boom" rfl).1,
    (c3_amended (FileT.mk ["bad.yml"] [some (Node.map [("a", Node.scalar)]), none]
      (some "boom")) "boom" rfl).2.2.2 "a"⟩

/-- Counterexample to C4: the exclusion rules of find_yaml_files and
analyze_pr_yaml_files are not the same, and neither is "excluded only under
the CI-workflow directory".  The path my-.github/workflows.yml (a file
workflows.yml inside a directory my-.github, not under any CI-workflow
directory) is kept by the repository scan but skipped by the change-set
analyzer, whose test is a substring match; and the repository scan excludes
.github/docs/workflows/a.yml although it is not under .github/workflows,
because its two checks are independent segment-membership tests. -/
theorem c4_counterexample :
    find_yaml_files_excluded ["my-.github", "workflows.yml"] = false
    ∧ pr_workflow_excluded (String.intercalate "/" ["my-.github", "workflows.yml"]) = true
    ∧ pr_workflow_excluded "my-.github/workflows.yml" = true
    ∧ find_yaml_files_excluded [".github", "docs", "workflows", "a.yml"] = true := by
  refine ⟨by decide, by decide, by decide, by decide⟩

/-- C4 (amended): the repository scan excludes by exact path-segment
membership: a path is excluded iff some segment equals ".git", or some
segment equals ".github" and some segment equals "workflows" (anywhere, not
necessarily adjacent).  A path none of whose segments is ".git" or ".github"
— such as one through a directory literally named "my.github-workflows" — is
therefore never excluded by the scan.  The change-set analyzer uses a
different rule: it skips a filename iff the literal substring
".github/workflows" occurs in it, so the two rules disagree, e.g. on
my-.github/workflows.yml. -/
theorem c4_amended :
    (∀ parts : List String,
      find_yaml_files_excluded parts = true
        ↔ (".git" ∈ parts ∨ (".github" ∈ parts ∧ "workflows" ∈ parts)))
    ∧ (∀ parts : List String, ".git" ∉ parts → ".github" ∉ parts →
        find_yaml_files_excluded parts = false)
    ∧ find_yaml_files_excluded ["my.github-workflows", "a.yml"] = false
    ∧ pr_workflow_excluded "my.github-workflows/a.yml" = false
    ∧ pr_workflow_excluded ".github/workflows/ci.yml" = true
    ∧ find_yaml_files_excluded ["my-.github", "workflows.yml"] = false
    ∧ pr_workflow_excluded "my-.github/workflows.yml" = true := by
  have hiff : ∀ parts : List String,
      find_yaml_files_excluded parts = true
        ↔ (".git" ∈ parts ∨ (".github" ∈ parts ∧ "workflows" ∈ parts)) := by
    intro parts
    simp [find_yaml_files_excluded]
  refine ⟨hiff, ?_, by decide, by decide, by decide, by decide, by decide⟩
  intro parts h1 h2
  cases hfe : find_yaml_files_excluded parts with
  | false => rfl
  | true =>
    rcases (hiff parts).mp hfe with h | h
    · exact absurd h h1
    · exact absurd h.1 h2

/-- Witness for C4 (amended): the segment-membership guarantee applied to the
concrete path my.github-workflows/a.yml. -/
theorem c4_amended_witness :
    find_yaml_files_excluded ["my.github-workflows", "a.yml"] = false :=
  c4_amended.2.1 ["my.github-workflows", "a.yml"] (by decide) (by decide)

/-- C5: write_key_counts emits exactly one line per key, each formatted as
count, tab, key, with lines ordered by count descending and ties broken by
key ascending in code-point order; on a map with unique keys consecutive
entries always compare strictly, so the ordering is total on the keys; e.g.
counts {"a":5, "b":5, "c":2} serialize as the lines for a, b, c. -/
theorem c5_write_key_counts :
    (∀ kc : List (String × Nat),
      (write_key_counts kc).length = kc.length
      ∧ write_key_counts kc = (List.insertionSort keyOrderRel kc).map keyLine
      ∧ (List.insertionSort keyOrderRel kc).Perm kc
      ∧ List.Sorted keyOrderRel (List.insertionSort keyOrderRel kc))
    ∧ (∀ kc : List (String × Nat), (keysOf kc).Nodup →
        List.Pairwise (fun a b : String × Nat =>
          b.2 < a.2 ∨ (a.2 = b.2 ∧ a.1 ≠ b.1 ∧ strLe a.1 b.1 = true))
          (List.insertionSort keyOrderRel kc))
    ∧ write_key_counts [("a", 5), ("b", 5), ("c", 2)] = ["5\ta", "5\tb", "2\tc"] := by
  refine ⟨?_, ?_, by decide⟩
  · intro kc
    refine ⟨?_, rfl, List.perm_insertionSort keyOrderRel kc,
      List.sorted_insertionSort keyOrderRel kc⟩
    simp [write_key_counts]
  · intro kc hnodup
    have hperm : (List.insertionSort keyOrderRel kc).Perm kc :=
      List.perm_insertionSort keyOrderRel kc
    have hnodup2 : (keysOf (List.insertionSort keyOrderRel kc)).Nodup :=
      ((hperm.map Prod.fst).nodup_iff).mpr hnodup
    have hne : List.Pairwise (fun a b : String × Nat => a.1 ≠ b.1)
        (List.insertionSort keyOrderRel kc) := by
      have h2 : List.Pairwise Ne (List.map Prod.fst (List.insertionSort keyOrderRel kc)) :=
        hnodup2
      exact List.pairwise_map.mp h2
    have hs : List.Sorted keyOrderRel (List.insertionSort keyOrderRel kc) :=
      List.sorted_insertionSort keyOrderRel kc
    refine (hs.and hne).imp ?_
    intro a b hab
    rcases hab with ⟨h1 | ⟨he, hlex⟩, hne2⟩
    · exact Or.inl h1
    · exact Or.inr ⟨he, hne2, hlex⟩

/-- Witness for C5: the strict consecutive ordering on the concrete map
{"a":5, "b":5, "c":2}, whose keys are distinct. -/
theorem c5_write_key_counts_witness :
    List.Pairwise (fun a b : String × Nat =>
        b.2 < a.2 ∨ (a.2 = b.2 ∧ a.1 ≠ b.1 ∧ strLe a.1 b.1 = true))
      (List.insertionSort keyOrderRel [("a", 5), ("b", 5), ("c", 2)]) :=
  c5_write_key_counts.2.1 [("a", 5), ("b", 5), ("c", 2)] (by decide)

theorem classify_foldl (repoCounts : List (String × Nat)) :
    ∀ (prc : List (String × Nat)) (st : List String × List (String × Nat × Nat × Nat)),
      prc.foldl (classifyStep repoCounts) st
        = (st.1 ++ (prc.filter (fun kv => decide (countOf repoCounts kv.1 = 0))).map Prod.fst,
           st.2 ++ (prc.filter (fun kv =>
               decide (countOf repoCounts kv.1 ≠ 0) && decide (0 < kv.2))).map
             (fun kv => (kv.1, countOf repoCounts kv.1, kv.2, countOf repoCounts kv.1 + kv.2))) := by
  intro prc
  induction prc with
  | nil =>
    intro st
    simp
  | cons kv rest ih =>
    intro st
    by_cases h0 : countOf repoCounts kv.1 = 0
    · have hstep : classifyStep repoCounts st kv = (st.1 ++ [kv.1], st.2) := by
        simp [classifyStep, h0]
      rw [List.foldl_cons, hstep, ih]
      simp [List.filter_cons, h0, List.append_assoc]
    · by_cases hc : 0 < kv.2
      · have hstep : classifyStep repoCounts st kv =
            (st.1, st.2 ++
              [(kv.1, countOf repoCounts kv.1, kv.2, countOf repoCounts kv.1 + kv.2)]) := by
          simp [classifyStep, h0, hc]
        rw [List.foldl_cons, hstep, ih]
        simp [List.filter_cons, h0, hc, List.append_assoc]
      · have hstep : classifyStep repoCounts st kv = st := by
          simp [classifyStep, h0, hc]
        rw [List.foldl_cons, hstep, ih]
        simp [List.filter_cons, h0, hc]

/-- C6: every key of the change-set map with zero prior repository count is
classified new (the new keys presented sorted ascending by key), and every
key with a positive prior count is classified increased, carrying the tuple
(priorCount, deltaCount, priorCount + deltaCount), with increased keys
presented ordered by delta descending; e.g. prior {"x": 3} and change-set
{"x": 2, "y": 1} classify x as increased with (3, 2, 5) and y as new. -/
theorem c6_classification :
    (∀ (prc repoCounts : List (String × Nat)) (k : String) (c : Nat),
      (k, c) ∈ prc → 0 < c →
        (countOf repoCounts k = 0 → k ∈ (classify_pr_keys prc repoCounts).1)
        ∧ (0 < countOf repoCounts k →
            (k, countOf repoCounts k, c, countOf repoCounts k + c)
              ∈ (classify_pr_keys prc repoCounts).2))
    ∧ (∀ (prc repoCounts : List (String × Nat)),
        List.Sorted strRel (classify_pr_keys prc repoCounts).1
        ∧ List.Sorted deltaRel (classify_pr_keys prc repoCounts).2)
    ∧ classify_pr_keys [("x", 2), ("y", 1)] [("x", 3)] = (["y"], [("x", 3, 2, 5)]) := by
  refine ⟨?_, ?_, by decide⟩
  · intro prc repoCounts k c hmem hc
    constructor
    · intro h0
      have hraw : k ∈ (prc.foldl (classifyStep repoCounts) ([], [])).1 := by
        rw [classify_foldl]
        simp only [List.nil_append]
        exact List.mem_map_of_mem Prod.fst
          (List.mem_filter.mpr ⟨hmem, by simp [h0]⟩)
      exact (List.mem_insertionSort strRel).mpr hraw
    · intro hpos
      have hraw : (k, countOf repoCounts k, c, countOf repoCounts k + c)
          ∈ (prc.foldl (classifyStep repoCounts) ([], [])).2 := by
        rw [classify_foldl]
        simp only [List.nil_append]
        exact List.mem_map_of_mem _
          (List.mem_filter.mpr ⟨hmem, by
            simp only [Bool.and_eq_true, decide_eq_true_eq]
            exact ⟨by omega, hc⟩⟩)
      exact (List.mem_insertionSort deltaRel).mpr hraw
  · intro prc repoCounts
    exact ⟨List.sorted_insertionSort strRel _, List.sorted_insertionSort deltaRel _⟩

/-- Witness for C6: the worked example — prior {"x": 3}, change-set
{"x": 2, "y": 1} — puts ("x", 3, 2, 5) in the increased table. -/
theorem c6_classification_witness :
    ("x", 3, 2, 5) ∈ (classify_pr_keys [("x", 2), ("y", 1)] [("x", 3)]).2 :=
  (c6_classification.1 [("x", 2), ("y", 1)] [("x", 3)] "x" 2
    (by decide) (by decide)).2 (by decide)

/-- C7: the repository scan is deterministic — the enumeration sorts the kept
files by path (code-point lexicographic), so any permutation of the glob
candidates yields the same enumeration and byte-identical serialized output;
scanning the same unchanged tree twice is the same pure function application
and hence also byte-identical. -/
theorem c7_scan_deterministic (cands cands2 : List FileT)
    (hperm : cands.Perm cands2)
    (hinj : ∀ f ∈ cands, ∀ g ∈ cands, pathStr f = pathStr g → f = g) :
    find_yaml_files cands = find_yaml_files cands2
    ∧ List.Sorted pathRel (find_yaml_files cands)
    ∧ repo_scan_output cands = repo_scan_output cands2 := by
  have hfilter : (cands.filter
        (fun f => isYamlName f.parts && !find_yaml_files_excluded f.parts)).Perm
      (cands2.filter (fun f => isYamlName f.parts && !find_yaml_files_excluded f.parts)) :=
    hperm.filter _
  have hs1 : List.Sorted pathRel (find_yaml_files cands) :=
    List.sorted_insertionSort pathRel _
  have hs2 : List.Sorted pathRel (find_yaml_files cands2) :=
    List.sorted_insertionSort pathRel _
  have hp : (find_yaml_files cands).Perm (find_yaml_files cands2) := by
    unfold find_yaml_files
    exact (List.perm_insertionSort pathRel _).trans
      (hfilter.trans (List.perm_insertionSort pathRel _).symm)
  have heq : find_yaml_files cands = find_yaml_files cands2 := by
    apply sorted_perm_unique hp hs1 hs2
    intro a ha b hb hab hba
    have ha2 : a ∈ cands := by
      have := (List.mem_insertionSort pathRel).mp ha
      exact (List.mem_filter.mp this).1
    have hb2 : b ∈ cands := by
      have := (List.mem_insertionSort pathRel).mp hb
      exact (List.mem_filter.mp this).1
    exact hinj a ha2 b hb2 (strLe_antisymm hab hba)
  exact ⟨heq, hs1, by rw [repo_scan_output, repo_scan_output, heq]⟩

/-- Witness for C7: swapping the two candidates of a concrete tree does not
change the enumeration. -/
theorem c7_scan_deterministic_witness :
    find_yaml_files [FileT.mk ["a.yml"] [] none, FileT.mk ["b.yml"] [] none]
      = find_yaml_files [FileT.mk ["b.yml"] [] none, FileT.mk ["a.yml"] [] none] := by
  have h := c7_scan_deterministic
    [FileT.mk ["a.yml"] [] none, FileT.mk ["b.yml"] [] none]
    [FileT.mk ["b.yml"] [] none, FileT.mk ["a.yml"] [] none]
    (List.Perm.swap (FileT.mk ["b.yml"] [] none) (FileT.mk ["a.yml"] [] none) [])
    (by
      intro f hf g hg hpq
      simp only [List.mem_cons, List.not_mem_nil, or_false] at hf hg
      rcases hf with rfl | rfl <;> rcases hg with rfl | rfl
      · rfl
      · exact absurd hpq (by decide)
      · exact absurd hpq (by decide)
      · rfl)
  exact h.1

/-- C9: with no API credential the run still performs the repository scan and
writes the serialized key-count file, performs zero network requests and
posts no comments, and exits with status 0. -/
theorem c9_no_token (repo : String) (cands : List FileT) (prs : List PRData) :
    main_run "" repo cands prs
        = ([Effect.scanRepo, Effect.writeOutput (repo_scan_output cands)], 0)
    ∧ (main_run "" repo cands prs).1.filter isNetworkEffect = []
    ∧ (main_run "" repo cands prs).2 = 0 := by
  have hppr : process_pull_requests "" repo prs = [] := by
    simp [process_pull_requests]
  refine ⟨by simp [main_run, hppr], ?_, rfl⟩
  simp [main_run, hppr, List.filter, isNetworkEffect]

/-- C10: a changed YAML file whose fetched content is the empty string —
whether the request raised (fetchResult none) or the file is genuinely empty
(fetchResult some "") — is recorded with the single error "Could not fetch
file content" and contributes zero key counts. -/
theorem c10_empty_content (f : PRFile)
    (hy : pr_is_yaml f.filename = true)
    (hw : pr_workflow_excluded f.filename = false)
    (hs : f.status ≠ "removed")
    (hu : f.raw_url ≠ "")
    (hf : f.fetchResult = none ∨ f.fetchResult = some "") :
    analyze_pr_yaml_files [f] = ([], [(f.filename, ["Could not fetch file content"])]) := by
  have hcontent : fetch_file_content f.fetchResult = "" := by
    rcases hf with h | h <;> simp [fetch_file_content, h]
  simp [analyze_pr_yaml_files, prStep, hy, hw, hs, hu, hcontent]

/-- Witness for C10: a modified file a.yml with empty fetched content, in
both the genuinely-empty and the failed-fetch variant. -/
theorem c10_empty_content_witness :
    analyze_pr_yaml_files [PRFile.mk "a.yml" "modified" "http://raw/a" (some "") [] none]
        = ([], [("a.yml", ["Could not fetch file content"])])
    ∧ analyze_pr_yaml_files [PRFile.mk "a.yml" "modified" "http://raw/a" none [] none]
        = ([], [("a.yml", ["Could not fetch file content"])]) :=
  ⟨c10_empty_content (PRFile.mk "a.yml" "modified" "http://raw/a" (some "") [] none)
      (by decide) (by decide) (by decide) (by decide) (Or.inr rfl),
    c10_empty_content (PRFile.mk "a.yml" "modified" "http://raw/a" none [] none)
      (by decide) (by decide) (by decide) (by decide) (Or.inl rfl)⟩

end YamlKeys
